import Mathlib

/-!
Verification development for the magic-cta-pipe event-processing scripts.

The definitions below are a shallow embedding of the per-event processing
loops of `hillas_preprocessing_MAGICCleaning_stereo_mars.py` and
`stereo_reco_MAGIC_LST.py`:

* charges and arrival times are rationals (`ℚ`);
* the Hillas `width` value is a rational extended with a NaN marker
  (`FVal`), since the code compares it with `== 0` and `np.isnan` and
  NaN fails the `== 0` test in IEEE semantics;
* external collaborators (event source, calibration, `hillas_parameters`
  together with the rest of the `try` block) are abstracted as inputs:
  a telescope's cleaning result is part of its input record and the shape
  computation is a function argument returning `Option` (`none` models a
  raised exception caught by the surrounding `except`/`try`).
-/

namespace MagicCTA

/-- Width value of a Hillas ellipse: a rational number or NaN.
`NaN == 0` is false, matching IEEE comparison in the Python source. -/
inductive FVal where
  | num (q : ℚ)
  | nan
deriving DecidableEq

/-- The `width.value == 0` test of the source (false on NaN). -/
def FVal.eqZero : FVal → Bool
  | .num q => decide (q = 0)
  | .nan => false

/-- The `np.isnan(width.value)` test of the source. -/
def FVal.isNaN : FVal → Bool
  | .num _ => false
  | .nan => true

/-- The part of a computed Hillas parameter set that the stereo gating
in the source inspects: the ellipse width. -/
structure Hillas where
  width : FVal
deriving DecidableEq

/-- Per-telescope input to one iteration of the telescope loop of
`process_dataset_mc` / `process_dataset_data`: the telescope id and the
triple returned by `magic_clean.clean_image` (cleaning mask, image,
pulse-time map). -/
structure TelInput where
  tel_id : Nat
  mask : List Bool
  image : List ℚ
  ptime : List ℚ
deriving DecidableEq

/-- Records written by the HDF5 writer in `process_dataset_mc`:
per-telescope `hillas_params` rows and per-event `stereo_params_mars` /
`stereo_params_cta` rows. -/
inductive Rec where
  | hillasRec (event_id : Int) (tel_id : Nat)
  | stereoMars (event_id : Int)
  | stereoCta (event_id : Int)
deriving DecidableEq

/-- Whether a record is one of the two per-event stereo rows. -/
def Rec.isStereo : Rec → Bool
  | .hillasRec _ _ => false
  | .stereoMars _ => true
  | .stereoCta _ => true

/-- Diagnostics printed by `process_dataset_mc` / `process_dataset_data`.
The per-telescope ones carry the event id and the telescope id, exactly as
the `print` calls in the source interpolate both. -/
inductive Diag where
  | noCleaning (event_id : Int) (tel_id : Nat)
  | hillasFailed (event_id : Int) (tel_id : Nat)
  | zeroWidth (event_id : Int)
  | nanWidth (event_id : Int)
deriving DecidableEq

/-- The caller-side zeroing of `process_dataset_mc` lines 208-212 (and
`process_dataset_data` lines 379-383):
`event_image_cleaned = event_image.copy(); event_image_cleaned[~clean_mask] = 0`.
Pixels where the mask is false become 0, pixels where it is true keep the
value the cleaning engine returned. -/
def zeroMasked (mask : List Bool) (xs : List ℚ) : List ℚ :=
  List.zipWith (fun b x => if b then x else 0) mask xs

/-- Abstraction of the body of the `try` block (Hillas, timing and leakage
computation on the cleaned arrays): `none` models a raised `ValueError`. -/
def HillasFn : Type := List ℚ → List ℚ → Option Hillas

/-- The telescope loop of `process_dataset_mc` (lines 198-259).
Returns the `hillas_params` records written, the diagnostics printed and
the dictionary `computed_hillas_params` (as an association list), in
telescope order. -/
def mcTelLoop (hf : HillasFn) (eid : Int) :
    List TelInput → List Rec × List Diag × List (Nat × Hillas)
  | [] => ([], [], [])
  | t :: rest =>
      let img := zeroMasked t.mask t.image
      let pt := zeroMasked t.mask t.ptime
      let r := mcTelLoop hf eid rest
      if img.any (fun q => decide (q ≠ 0)) then
        match hf img pt with
        | some h =>
            (Rec.hillasRec eid t.tel_id :: r.1, r.2.1, (t.tel_id, h) :: r.2.2)
        | none =>
            (r.1, Diag.hillasFailed eid t.tel_id :: r.2.1, r.2.2)
      else
        (r.1, Diag.noCleaning eid t.tel_id :: r.2.1, r.2.2)

/-- Outcome of the stereo gating of `process_dataset_mc` lines 261-268:
which branch of the nested `if` is taken. -/
inductive StereoOutcome where
  | insufficientTels
  | zeroWidthGate
  | nanWidthGate
  | stereoComputed
deriving DecidableEq

/-- The gating of `process_dataset_mc` lines 261-268 as an outcome
classifier: `len(computed_hillas_params) > 1` first, then the
`width == 0` check, then the `isnan` check; no branch at all (silent
skip) when fewer than 2 entries exist. -/
def stereoGate (cs : List (Nat × Hillas)) : StereoOutcome :=
  if 1 < cs.length then
    if cs.any (fun p => p.2.width.eqZero) then .zeroWidthGate
    else if cs.any (fun p => p.2.width.isNaN) then .nanWidthGate
    else .stereoComputed
  else .insufficientTels

/-- The stereo step of `process_dataset_mc` lines 261-274: the records
written and the diagnostics printed after the telescope loop ended. -/
def stereoStep (eid : Int) (cs : List (Nat × Hillas)) : List Rec × List Diag :=
  if 1 < cs.length then
    if cs.any (fun p => p.2.width.eqZero) then ([], [Diag.zeroWidth eid])
    else if cs.any (fun p => p.2.width.isNaN) then ([], [Diag.nanWidth eid])
    else ([Rec.stereoMars eid, Rec.stereoCta eid], [])
  else ([], [])

/-- One full event iteration of `process_dataset_mc`: telescope loop
followed by the stereo step; writer output and printed diagnostics. -/
def process_event_mc (hf : HillasFn) (eid : Int) (tels : List TelInput) :
    List Rec × List Diag :=
  ((mcTelLoop hf eid tels).1 ++ (stereoStep eid (mcTelLoop hf eid tels).2.2).1,
   (mcTelLoop hf eid tels).2.1 ++ (stereoStep eid (mcTelLoop hf eid tels).2.2).2)

/-- Camera type of a telescope in `stereo_reco_MAGIC_LST`, distinguished
by `geom.camera_name`. -/
inductive CamType where
  | lst
  | magicCam
  | otherCam
deriving DecidableEq

/-- Per-telescope input to one iteration of the telescope loop of
`stereo_reco_MAGIC_LST` (lines 136-233): the telescope id, its camera
type, the cleaning mask produced by `tailcuts_clean` (LST) or
`magic_clean.clean_image` (MAGIC), and the result of the shape
computations of the `try` block (`none` models a raised exception that
the `except Exception` handler catches). -/
structure STel where
  tel_id : Nat
  cam : CamType
  mask : List Bool
  hRes : Option Hillas
deriving DecidableEq

/-- Records written by `stereo_reco_MAGIC_LST`: per-telescope
`hillas_params` rows, and the per-event stereo row.
The stereo row is modelled from the spec: `check_write_stereo`
(from `magicctapipe.reco.stereo`) is not under src/; following the spec's
`combine` contract it depends on the contributed ellipses, carried here
as the row's payload. -/
inductive SRec where
  | hillasRec (tel_id : Nat)
  | stereoRec (inputs : List (Nat × Hillas))
deriving DecidableEq

/-- The telescope loop of `stereo_reco_MAGIC_LST` (lines 136-233).
Returns the records written, the `computed_hillas_params` association
list, and the `skip` flag. A telescope whose camera is neither LSTCam nor
MAGICCam, or whose cleaning mask selects fewer than 5 pixels, is passed
over by `continue`; an exception in the shape computation prints, sets
`skip = True` and `break`s out of the loop, so later telescopes are not
visited at all. -/
def stereo_reco_tel_loop : List STel → List SRec × List (Nat × Hillas) × Bool
  | [] => ([], [], false)
  | t :: rest =>
      match t.cam with
      | .otherCam => stereo_reco_tel_loop rest
      | .lst =>
          if t.mask.count true < 5 then stereo_reco_tel_loop rest
          else
            match t.hRes with
            | none => ([], [], true)
            | some h =>
                (SRec.hillasRec t.tel_id :: (stereo_reco_tel_loop rest).1,
                 (t.tel_id, h) :: (stereo_reco_tel_loop rest).2.1,
                 (stereo_reco_tel_loop rest).2.2)
      | .magicCam =>
          if t.mask.count true < 5 then stereo_reco_tel_loop rest
          else
            match t.hRes with
            | none => ([], [], true)
            | some h =>
                (SRec.hillasRec t.tel_id :: (stereo_reco_tel_loop rest).1,
                 (t.tel_id, h) :: (stereo_reco_tel_loop rest).2.1,
                 (stereo_reco_tel_loop rest).2.2)

/-- One full event iteration of `stereo_reco_MAGIC_LST` (lines 136-251):
records already written stay written; on `skip` or with fewer than two
entries in `computed_hillas_params` no stereo row is added; otherwise the
stereo row over the contributed ellipses is appended. -/
def stereo_reco_event (tels : List STel) : List SRec :=
  if (stereo_reco_tel_loop tels).2.2 then (stereo_reco_tel_loop tels).1
  else if (stereo_reco_tel_loop tels).2.1.length < 2 then
    (stereo_reco_tel_loop tels).1
  else
    (stereo_reco_tel_loop tels).1 ++
      [SRec.stereoRec (stereo_reco_tel_loop tels).2.1]

/-- One event of a batch: its `event.index.event_id` and the
per-telescope inputs of its telescope loop. -/
structure EventInput where
  event_id : Int
  tels : List TelInput
deriving DecidableEq

/-- The per-event body of `process_dataset_data` (lines 354-441): its
record/diagnostic structure is the same as the MC body (lines 187-274),
so it is embedded by the same function. -/
def process_event_data : HillasFn → Int → List TelInput → List Rec × List Diag :=
  process_event_mc

/-- The event loop of `process_dataset_data` (lines 334, 347-352):
`previous_event_id` starts at 0; an event whose id equals it is skipped
entirely by `continue` (before any cleaning, parameter computation or
output) and `previous_event_id` is updated only for processed events.
Each processed event is tagged with its position in the source stream. -/
def process_dataset_data_loop (hf : HillasFn) (prev : Int) (pos : Nat) :
    List EventInput → List (Nat × Int × List Rec × List Diag)
  | [] => []
  | e :: rest =>
      if prev = e.event_id then
        process_dataset_data_loop hf prev (pos + 1) rest
      else
        (pos, e.event_id, process_event_data hf e.event_id e.tels) ::
          process_dataset_data_loop hf e.event_id (pos + 1) rest

/-- The event loop of `process_dataset_mc` (lines 180-274): every event
of the source is processed; there is no deduplication check. -/
def process_dataset_mc_loop (hf : HillasFn) (pos : Nat) :
    List EventInput → List (Nat × Int × List Rec × List Diag)
  | [] => []
  | e :: rest =>
      (pos, e.event_id, process_event_mc hf e.event_id e.tels) ::
        process_dataset_mc_loop hf (pos + 1) rest

/-- Configuration of the cleaning engine, with the options recognized by
the call sites (`cleaning_config` in both processing functions). -/
structure CleanConfig where
  picture_thresh : ℚ
  boundary_thresh : ℚ
  max_time_off : ℚ
  max_time_diff : ℚ
  usetime : Bool
  usesum : Bool
  findhotpixels : Bool

/-- Modelled from the spec: step 1 of the cleaning algorithm of
`MAGIC_Cleaning.magic_clean.clean_image`, whose source (the `utils`
package) is not under src/. Pixels in the unsuitable mask — and, when
`findhotpixels` is set, pixels flagged by the (unspecified, here
abstract) hot-pixel test — are excluded from all further steps. -/
def excludedPix (cfg : CleanConfig) {n : Nat} (unsuitable hot : Fin n → Bool)
    (i : Fin n) : Bool :=
  unsuitable i || (cfg.findhotpixels && hot i)

/-- Modelled from the spec: step 2 of the cleaning algorithm — core
candidates are the non-excluded pixels with charge at least the picture
threshold. -/
def coreCandidates (cfg : CleanConfig) {n : Nat} (charge : Fin n → ℚ)
    (excluded : Fin n → Bool) : Finset (Fin n) :=
  Finset.univ.filter (fun i =>
    excluded i = false ∧ cfg.picture_thresh ≤ charge i)

/-- Modelled from the spec: the reference time of step 3 — the mean of
the current core candidates' times, charge-weighted when the
sum-time-reference option is set, 0 on an empty or zero-charge set. -/
def refTime (cfg : CleanConfig) {n : Nat} (charge time : Fin n → ℚ)
    (s : Finset (Fin n)) : ℚ :=
  if cfg.usesum then
    if (∑ i ∈ s, charge i) = 0 then 0
    else (∑ i ∈ s, charge i * time i) / (∑ i ∈ s, charge i)
  else
    if s.card = 0 then 0 else (∑ i ∈ s, time i) / s.card

/-- Modelled from the spec: one pass of the core time-outlier rejection
of step 3 — drop core candidates whose time deviates from the reference
by more than the maximal time offset. -/
def refinePass (cfg : CleanConfig) {n : Nat} (charge time : Fin n → ℚ)
    (s : Finset (Fin n)) : Finset (Fin n) :=
  s.filter (fun i => |time i - refTime cfg charge time s| ≤ cfg.max_time_off)

/-- Modelled from the spec: steps 2-4 — the accepted core pixels that
seed the mask, with the time refinement iterated a small fixed number of
passes when the time option is set. -/
def coreSet (cfg : CleanConfig) {n : Nat} (charge time : Fin n → ℚ)
    (excluded : Fin n → Bool) : Finset (Fin n) :=
  if cfg.usetime then
    (refinePass cfg charge time)^[5] (coreCandidates cfg charge excluded)
  else coreCandidates cfg charge excluded

/-- Modelled from the spec: one round of the boundary-expansion flood
fill of step 5 — accept any non-excluded pixel of at-least-boundary
charge adjacent to an accepted pixel, subject to the pairwise time
coincidence when the time option is set. -/
def growClean (cfg : CleanConfig) {n : Nat} (charge time : Fin n → ℚ)
    (adj : Fin n → Fin n → Bool) (excluded : Fin n → Bool)
    (s : Finset (Fin n)) : Finset (Fin n) :=
  s ∪ Finset.univ.filter (fun j =>
    excluded j = false ∧ cfg.boundary_thresh ≤ charge j ∧
    ∃ i ∈ s, adj i j = true ∧
      (cfg.usetime = false ∨ |time j - time i| ≤ cfg.max_time_diff))

/-- Modelled from the spec: `clean(image, time_map, topology,
unsuitable_mask, config) -> CleaningMask`, the contract of
`MAGIC_Cleaning.magic_clean.clean_image` (not under src/) — exclusion,
core seeding with optional time refinement, and boundary expansion
repeated to a fixed point (n rounds suffice on n pixels). -/
def clean_image (cfg : CleanConfig) {n : Nat} (charge time : Fin n → ℚ)
    (adj : Fin n → Fin n → Bool) (unsuitable hot : Fin n → Bool) :
    Finset (Fin n) :=
  (growClean cfg charge time adj (excludedPix cfg unsuitable hot))^[n]
    (coreSet cfg charge time (excludedPix cfg unsuitable hot))

/-- The row/column restriction `neighbors[clean_mask][:, clean_mask]` of
`get_num_islands`: the pixel indices selected by the cleaning mask, in
index order. -/
def selectedIdx (n : Nat) (mask : List Bool) : List Nat :=
  (List.range n).filter (fun i => mask.getD i false)

/-- One expansion round of the reachable set in a finite Bool-adjacency
graph: add every vertex adjacent to the current set. -/
def growComp {k : Nat} (e : Fin k → Fin k → Bool) (s : Finset (Fin k)) :
    Finset (Fin k) :=
  s ∪ Finset.univ.filter (fun j => ∃ i ∈ s, e i j = true)

/-- The set of vertices reachable from `v`: `k` expansion rounds reach
the fixed point on `k` vertices. -/
def reachComp {k : Nat} (e : Fin k → Fin k → Bool) (v : Fin k) :
    Finset (Fin k) :=
  (growComp e)^[k] {v}

/-- The number of connected components of a finite Bool-adjacency graph,
as `scipy.sparse.csgraph.connected_components` computes it: the number of
distinct reachable sets. -/
def numComponents {k : Nat} (e : Fin k → Fin k → Bool) : Nat :=
  (Finset.image (reachComp e) Finset.univ).card

/-- The restricted adjacency submatrix of `get_num_islands`, read
undirected (`directed=False` symmetrizes): entry `(a, b)` of
`neighbors[clean_mask][:, clean_mask]` over the selected indices. -/
def inducedAdj (n : Nat) (adj : Nat → Nat → Bool) (mask : List Bool) :
    Fin (selectedIdx n mask).length → Fin (selectedIdx n mask).length → Bool :=
  fun a b =>
    adj ((selectedIdx n mask).get a) ((selectedIdx n mask).get b) ||
    adj ((selectedIdx n mask).get b) ((selectedIdx n mask).get a)

/-- `get_num_islands(camera, clean_mask, event_image)` of
`hillas_preprocessing_MAGICCleaning_stereo_mars.py` lines 54-76: restrict
the camera neighbor matrix to the mask-selected pixels and count
connected components with `connected_components(..., directed=False)`.
The `event_image` argument appears in the source signature but is never
used by the body. -/
def get_num_islands (n : Nat) (adj : Nat → Nat → Bool) (mask : List Bool)
    (event_image : List ℚ) : Nat :=
  numComponents (inducedAdj n adj mask)

/-- The adjacency graph restricted to the pixels where the mask is true
(undirected), on original pixel indices: the spec-side relation for the
island count. -/
def maskedAdj (n : Nat) (adj : Nat → Nat → Bool) (mask : List Bool)
    (a b : Nat) : Prop :=
  (a < n ∧ mask.getD a false = true) ∧ (b < n ∧ mask.getD b false = true) ∧
  (adj a b = true ∨ adj b a = true)

end MagicCTA

namespace MagicCTA

theorem stereoStep_of_gate (eid : Int) (cs : List (Nat × Hillas)) :
    stereoStep eid cs =
      match stereoGate cs with
      | .insufficientTels => ([], [])
      | .zeroWidthGate => ([], [Diag.zeroWidth eid])
      | .nanWidthGate => ([], [Diag.nanWidth eid])
      | .stereoComputed => ([Rec.stereoMars eid, Rec.stereoCta eid], []) := by
  unfold stereoStep stereoGate
  by_cases h1 : 1 < cs.length
  · simp only [if_pos h1]
    by_cases h2 : cs.any (fun p => p.2.width.eqZero) = true
    · simp [h2]
    · simp only [Bool.not_eq_true] at h2
      by_cases h3 : cs.any (fun p => p.2.width.isNaN) = true
      · simp [h2, h3]
      · simp only [Bool.not_eq_true] at h3
        simp [h2, h3]
  · simp [h1]

theorem mcTelLoop_records_hillas (hf : HillasFn) (eid : Int)
    (tels : List TelInput) :
    ∀ r ∈ (mcTelLoop hf eid tels).1, r.isStereo = false := by
  induction tels with
  | nil => intro r hr; simp [mcTelLoop] at hr
  | cons t rest ih =>
      intro r hr
      simp only [mcTelLoop] at hr
      by_cases hc : (zeroMasked t.mask t.image).any (fun q => decide (q ≠ 0)) = true
      · simp only [hc, if_true] at hr
        cases hhf : hf (zeroMasked t.mask t.image) (zeroMasked t.mask t.ptime) with
        | some h =>
            rw [hhf] at hr
            simp only [List.mem_cons] at hr
            rcases hr with rfl | hr
            · rfl
            · exact ih r hr
        | none =>
            rw [hhf] at hr
            exact ih r hr
      · simp only [Bool.not_eq_true] at hc
        simp only [hc, Bool.false_eq_true, if_false] at hr
        exact ih r hr

/-- Claim C1. For an event with at least 2 entries in
`computed_hillas_params`, the gating of `process_dataset_mc` lines 261-268
is applied in the stated order with a distinct outcome per branch: the
insufficient-telescopes outcome occurs exactly when fewer than 2 ellipses
were contributed; with at least 2, any ellipse of zero width forces the
zero-width outcome (even if another ellipse has NaN width); with none of
zero width, any NaN width forces the NaN outcome; otherwise the stereo
computation proceeds. -/
theorem c1_stereo_gate_order (cs : List (Nat × Hillas)) :
    (stereoGate cs = StereoOutcome.insufficientTels ↔ cs.length < 2) ∧
    (2 ≤ cs.length → (∃ p ∈ cs, p.2.width.eqZero = true) →
      stereoGate cs = StereoOutcome.zeroWidthGate) ∧
    (2 ≤ cs.length → (∀ p ∈ cs, p.2.width.eqZero = false) →
      (∃ p ∈ cs, p.2.width.isNaN = true) →
      stereoGate cs = StereoOutcome.nanWidthGate) ∧
    (2 ≤ cs.length → (∀ p ∈ cs, p.2.width.eqZero = false) →
      (∀ p ∈ cs, p.2.width.isNaN = false) →
      stereoGate cs = StereoOutcome.stereoComputed) := by
  refine ⟨?_, ?_, ?_, ?_⟩
  · constructor
    · intro h
      by_contra hlen
      push_neg at hlen
      have h1 : 1 < cs.length := by omega
      unfold stereoGate at h
      simp only [if_pos h1] at h
      by_cases h2 : cs.any (fun p => p.2.width.eqZero) = true
      · simp [h2] at h
      · simp only [Bool.not_eq_true] at h2
        by_cases h3 : cs.any (fun p => p.2.width.isNaN) = true
        · simp [h2, h3] at h
        · simp only [Bool.not_eq_true] at h3
          simp [h2, h3] at h
    · intro hlen
      have h1 : ¬ 1 < cs.length := by omega
      unfold stereoGate
      simp [h1]
  · intro hlen hz
    have h1 : 1 < cs.length := by omega
    have h2 : cs.any (fun p => p.2.width.eqZero) = true := by
      rw [List.any_eq_true]; exact hz
    unfold stereoGate
    simp [h1, h2]
  · intro hlen hz hn
    have h1 : 1 < cs.length := by omega
    have h2 : cs.any (fun p => p.2.width.eqZero) = false := by
      rw [List.any_eq_false]; intro p hp; simp [hz p hp]
    have h3 : cs.any (fun p => p.2.width.isNaN) = true := by
      rw [List.any_eq_true]; exact hn
    unfold stereoGate
    simp [h1, h2, h3]
  · intro hlen hz hn
    have h1 : 1 < cs.length := by omega
    have h2 : cs.any (fun p => p.2.width.eqZero) = false := by
      rw [List.any_eq_false]; intro p hp; simp [hz p hp]
    have h3 : cs.any (fun p => p.2.width.isNaN) = false := by
      rw [List.any_eq_false]; intro p hp; simp [hn p hp]
    unfold stereoGate
    simp [h1, h2, h3]

/-- Witness for C1: two contributed ellipses, one of width 0 and one of
width NaN, take the zero-width branch. -/
theorem c1_stereo_gate_order_witness :
    stereoGate [(1, ⟨FVal.num 0⟩), (2, ⟨FVal.nan⟩)] =
      StereoOutcome.zeroWidthGate :=
  (c1_stereo_gate_order [(1, ⟨FVal.num 0⟩), (2, ⟨FVal.nan⟩)]).2.1
    (by decide) (by decide)

/-- Claim C3. When fewer than 2 telescopes contributed an ellipse
(`len(computed_hillas_params) < 2`), the gate yields the distinct
insufficient-telescopes outcome, no stereo records are appended, no
width diagnostic is printed, and no stereo computation happens: the
event output is exactly the telescope-loop output. -/
theorem c3_insufficient_telescopes (hf : HillasFn) (eid : Int)
    (tels : List TelInput)
    (h : (mcTelLoop hf eid tels).2.2.length < 2) :
    stereoGate (mcTelLoop hf eid tels).2.2 = StereoOutcome.insufficientTels ∧
    process_event_mc hf eid tels =
      ((mcTelLoop hf eid tels).1, (mcTelLoop hf eid tels).2.1) ∧
    (∀ r ∈ (process_event_mc hf eid tels).1, r.isStereo = false) := by
  have hg : stereoGate (mcTelLoop hf eid tels).2.2 =
      StereoOutcome.insufficientTels := by
    unfold stereoGate
    have h1 : ¬ 1 < (mcTelLoop hf eid tels).2.2.length := by omega
    simp [h1]
  have hs : stereoStep eid (mcTelLoop hf eid tels).2.2 = ([], []) := by
    rw [stereoStep_of_gate, hg]
  refine ⟨hg, ?_, ?_⟩
  · unfold process_event_mc
    rw [hs]
    simp
  · intro r hr
    unfold process_event_mc at hr
    rw [hs] at hr
    simp only [List.append_nil] at hr
    exact mcTelLoop_records_hillas hf eid tels r hr

/-- Witness for C3 at a concrete event with a single telescope whose
shape computation fails: no entries contributed, outcome is the
insufficient-telescopes branch and the output is the loop output. -/
theorem c3_insufficient_telescopes_witness :
    stereoGate (mcTelLoop (fun _ _ => none) 0 [⟨1, [true], [1], [0]⟩]).2.2 =
      StereoOutcome.insufficientTels ∧
    process_event_mc (fun _ _ => none) 0 [⟨1, [true], [1], [0]⟩] =
      ((mcTelLoop (fun _ _ => none) 0 [⟨1, [true], [1], [0]⟩]).1,
       (mcTelLoop (fun _ _ => none) 0 [⟨1, [true], [1], [0]⟩]).2.1) ∧
    (∀ r ∈ (process_event_mc (fun _ _ => none) 0 [⟨1, [true], [1], [0]⟩]).1,
      r.isStereo = false) :=
  c3_insufficient_telescopes (fun _ _ => none) 0 [⟨1, [true], [1], [0]⟩]
    (by decide)

/-- Claim C4. Whenever the stereo gating does not reach the computed
branch (fewer than 2 contributed ellipses, or a zero- or NaN-width
ellipse), no stereo record is written at all: the event's record list is
exactly the per-telescope records produced by the telescope loop,
unchanged, and every record in it is a monocular `hillas_params` row. -/
theorem c4_no_stereo_record (hf : HillasFn) (eid : Int) (tels : List TelInput)
    (h : stereoGate (mcTelLoop hf eid tels).2.2 ≠ StereoOutcome.stereoComputed) :
    (process_event_mc hf eid tels).1 = (mcTelLoop hf eid tels).1 ∧
    (∀ r ∈ (process_event_mc hf eid tels).1, r.isStereo = false) := by
  have hs : (stereoStep eid (mcTelLoop hf eid tels).2.2).1 = [] := by
    rw [stereoStep_of_gate]
    cases hg : stereoGate (mcTelLoop hf eid tels).2.2
    · rfl
    · rfl
    · rfl
    · exact absurd hg h
  constructor
  · unfold process_event_mc
    rw [hs]
    simp
  · intro r hr
    unfold process_event_mc at hr
    rw [hs] at hr
    simp only [List.append_nil] at hr
    exact mcTelLoop_records_hillas hf eid tels r hr

/-- Witness for C4 at a concrete event with two contributed ellipses, one
of zero width: the gate fails, and the record list is the unchanged
monocular output. -/
theorem c4_no_stereo_record_witness :
    (process_event_mc
        (fun img _ => if img.any (fun q => decide (q ≠ 0)) then
          some ⟨FVal.num 0⟩ else none)
        3 [⟨1, [true], [1], [0]⟩, ⟨2, [true], [2], [0]⟩]).1 =
      (mcTelLoop
        (fun img _ => if img.any (fun q => decide (q ≠ 0)) then
          some ⟨FVal.num 0⟩ else none)
        3 [⟨1, [true], [1], [0]⟩, ⟨2, [true], [2], [0]⟩]).1 ∧
    (∀ r ∈ (process_event_mc
        (fun img _ => if img.any (fun q => decide (q ≠ 0)) then
          some ⟨FVal.num 0⟩ else none)
        3 [⟨1, [true], [1], [0]⟩, ⟨2, [true], [2], [0]⟩]).1,
      r.isStereo = false) :=
  c4_no_stereo_record _ 3 _ (by decide)

/-- Claim C6. The caller-side cleaned arrays are produced by zeroing
exactly the pixels where the mask is false and keeping the engine-returned
value where it is true (`process_dataset_mc` lines 208-212 and
`process_dataset_data` lines 379-383). -/
theorem c6_caller_zeroes (mask : List Bool) (xs : List ℚ) (i : Nat)
    (h1 : i < mask.length) (h2 : i < xs.length) :
    (zeroMasked mask xs).length = min mask.length xs.length ∧
    (zeroMasked mask xs).getD i 0 =
      (if mask.getD i false then xs.getD i 0 else 0) := by
  constructor
  · unfold zeroMasked
    exact List.length_zipWith _ _ _
  · induction mask generalizing xs i with
    | nil => simp at h1
    | cons b bs ih =>
        cases xs with
        | nil => simp at h2
        | cons x xs =>
            cases i with
            | zero => simp [zeroMasked]
            | succ j =>
                simp only [zeroMasked, List.zipWith_cons_cons, List.getD_cons_succ]
                exact ih xs j (by simpa using h1) (by simpa using h2)

/-- Witness for C6 on a concrete mask and image: the selected pixel is
unchanged, the deselected pixel is zeroed. -/
theorem c6_caller_zeroes_witness :
    (zeroMasked [true, false] [3, 4]).length = min 2 2 ∧
    (zeroMasked [true, false] [3, 4]).getD 1 0 =
      (if ([true, false] : List Bool).getD 1 false then
        ([3, 4] : List ℚ).getD 1 0 else 0) :=
  c6_caller_zeroes [true, false] [3, 4] 1 (by decide) (by decide)

theorem stereo_reco_tel_loop_drop (t : STel)
    (hc : t.cam = CamType.lst ∨ t.cam = CamType.magicCam)
    (hm : t.mask.count true < 5) :
    ∀ pre post : List STel,
      stereo_reco_tel_loop (pre ++ t :: post) =
        stereo_reco_tel_loop (pre ++ post) := by
  intro pre
  induction pre with
  | nil =>
      intro post
      rcases hc with hc | hc
      · simp [stereo_reco_tel_loop, hc, hm]
      · simp [stereo_reco_tel_loop, hc, hm]
  | cons p rest ih =>
      intro post
      cases hp : p.cam with
      | otherCam => simp [stereo_reco_tel_loop, hp, ih post]
      | lst =>
          by_cases hpm : p.mask.count true < 5
          · simp [stereo_reco_tel_loop, hp, hpm, ih post]
          · cases hr : p.hRes with
            | none => simp [stereo_reco_tel_loop, hp, hpm, hr]
            | some h => simp [stereo_reco_tel_loop, hp, hpm, hr, ih post]
      | magicCam =>
          by_cases hpm : p.mask.count true < 5
          · simp [stereo_reco_tel_loop, hp, hpm, ih post]
          · cases hr : p.hRes with
            | none => simp [stereo_reco_tel_loop, hp, hpm, hr]
            | some h => simp [stereo_reco_tel_loop, hp, hpm, hr, ih post]

/-- Claim C8. In `stereo_reco_MAGIC_LST`, a telescope whose cleaning mask
selects fewer than 5 pixels (LST tailcuts cleaning and MAGIC cleaning
alike) is silently dropped: the telescope loop and the whole event
processing behave exactly as if the telescope were never present — no
Hillas/leakage/timing record is written for it, it is absent from
`computed_hillas_params`, and it contributes nothing to the stereo row. -/
theorem c8_few_pixel_drop (t : STel) (pre post : List STel)
    (hc : t.cam = CamType.lst ∨ t.cam = CamType.magicCam)
    (hm : t.mask.count true < 5) :
    stereo_reco_tel_loop (pre ++ t :: post) =
      stereo_reco_tel_loop (pre ++ post) ∧
    stereo_reco_event (pre ++ t :: post) = stereo_reco_event (pre ++ post) := by
  have hd := stereo_reco_tel_loop_drop t hc hm pre post
  exact ⟨hd, by unfold stereo_reco_event; rw [hd]⟩

/-- Witness for C8: a MAGIC telescope with a 4-pixel mask vanishes from
the event containing it and one valid LST telescope. -/
theorem c8_few_pixel_drop_witness :
    stereo_reco_tel_loop
        [⟨1, CamType.magicCam, [true, true, true, true], some ⟨FVal.num 1⟩⟩,
         ⟨2, CamType.lst, [true, true, true, true, true], some ⟨FVal.num 2⟩⟩] =
      stereo_reco_tel_loop
        [⟨2, CamType.lst, [true, true, true, true, true], some ⟨FVal.num 2⟩⟩] ∧
    stereo_reco_event
        [⟨1, CamType.magicCam, [true, true, true, true], some ⟨FVal.num 1⟩⟩,
         ⟨2, CamType.lst, [true, true, true, true, true], some ⟨FVal.num 2⟩⟩] =
      stereo_reco_event
        [⟨2, CamType.lst, [true, true, true, true, true], some ⟨FVal.num 2⟩⟩] :=
  c8_few_pixel_drop
    ⟨1, CamType.magicCam, [true, true, true, true], some ⟨FVal.num 1⟩⟩
    []
    [⟨2, CamType.lst, [true, true, true, true, true], some ⟨FVal.num 2⟩⟩]
    (Or.inr rfl) (by decide)

/-- Counterexample to claim C2: in `stereo_reco_MAGIC_LST`, a shape
computation raising on telescope 1 sets `skip = True` and `break`s, so the
perfectly valid telescope 2 of the same event is never processed — no
record is written for it, contradicting that processing continues with
the remaining telescopes of the event. -/
theorem c2_local_failure_counterexample :
    stereo_reco_tel_loop
        [⟨1, CamType.magicCam, [true, true, true, true, true], none⟩,
         ⟨2, CamType.magicCam, [true, true, true, true, true],
          some ⟨FVal.num 1⟩⟩] = ([], [], true) ∧
    SRec.hillasRec 2 ∉
      stereo_reco_event
        [⟨1, CamType.magicCam, [true, true, true, true, true], none⟩,
         ⟨2, CamType.magicCam, [true, true, true, true, true],
          some ⟨FVal.num 1⟩⟩] := by
  constructor
  · rfl
  · decide

/-- Claim C2 (amended). In `process_dataset_mc` / `process_dataset_data`,
a per-telescope failure — an all-zero cleaned image, or the Hillas
computation raising `ValueError` — skips only that telescope's unit of
work, with a diagnostic carrying the event and telescope identifiers, and
the remaining telescopes of the event are processed exactly as without
the failed one. In `stereo_reco_MAGIC_LST`, a telescope with fewer than 5
cleaned pixels is likewise skipped locally (silently), but an exception
in the shape computation aborts the remaining telescopes of that event
(`skip = True` and `break`); no failure aborts the overall batch. -/
theorem c2_per_telescope_failure_amended :
    (∀ (hf : HillasFn) (eid : Int) (t : TelInput) (rest : List TelInput),
      (zeroMasked t.mask t.image).any (fun q => decide (q ≠ 0)) = true →
      hf (zeroMasked t.mask t.image) (zeroMasked t.mask t.ptime) = none →
      mcTelLoop hf eid (t :: rest) =
        ((mcTelLoop hf eid rest).1,
         Diag.hillasFailed eid t.tel_id :: (mcTelLoop hf eid rest).2.1,
         (mcTelLoop hf eid rest).2.2)) ∧
    (∀ (hf : HillasFn) (eid : Int) (t : TelInput) (rest : List TelInput),
      (zeroMasked t.mask t.image).any (fun q => decide (q ≠ 0)) = false →
      mcTelLoop hf eid (t :: rest) =
        ((mcTelLoop hf eid rest).1,
         Diag.noCleaning eid t.tel_id :: (mcTelLoop hf eid rest).2.1,
         (mcTelLoop hf eid rest).2.2)) ∧
    (∀ (t : STel) (rest : List STel),
      (t.cam = CamType.lst ∨ t.cam = CamType.magicCam) →
      5 ≤ t.mask.count true →
      t.hRes = none →
      stereo_reco_tel_loop (t :: rest) = ([], [], true)) := by
  refine ⟨?_, ?_, ?_⟩
  · intro hf eid t rest hany hnone
    simp only [mcTelLoop, hany, if_true, hnone]
  · intro hf eid t rest hany
    simp only [mcTelLoop, hany, Bool.false_eq_true, if_false]
  · intro t rest hc hm hr
    have hm2 : ¬ t.mask.count true < 5 := by omega
    rcases hc with hc | hc
    · simp [stereo_reco_tel_loop, hc, hm2, hr]
    · simp [stereo_reco_tel_loop, hc, hm2, hr]

/-- Witness for the amended C2: a concrete MC telescope whose Hillas
computation fails yields exactly one identified diagnostic and no record,
and a concrete stereo-path telescope whose shape computation raises sets
the event-level skip. -/
theorem c2_per_telescope_failure_amended_witness :
    mcTelLoop (fun _ _ => none) 7 [⟨3, [true], [1], [0]⟩] =
      ([], [Diag.hillasFailed 7 3], []) ∧
    stereo_reco_tel_loop
        [⟨1, CamType.magicCam, [true, true, true, true, true], none⟩] =
      ([], [], true) :=
  ⟨by
    rw [c2_per_telescope_failure_amended.1 (fun _ _ => none) 7
      ⟨3, [true], [1], [0]⟩ [] (by decide) rfl]
    rfl,
   c2_per_telescope_failure_amended.2.2
    ⟨1, CamType.magicCam, [true, true, true, true, true], none⟩ []
    (Or.inr rfl) (by decide) rfl⟩

theorem data_loop_pos_lower (hf : HillasFn) :
    ∀ (l : List EventInput) (prev : Int) (pos : Nat),
      ∀ x ∈ process_dataset_data_loop hf prev pos l, pos ≤ x.1 := by
  intro l
  induction l with
  | nil => intro prev pos x hx; simp [process_dataset_data_loop] at hx
  | cons e rest ih =>
      intro prev pos x hx
      by_cases h : prev = e.event_id
      · simp only [process_dataset_data_loop, if_pos h] at hx
        have := ih prev (pos + 1) x hx
        omega
      · simp only [process_dataset_data_loop, if_neg h, List.mem_cons] at hx
        rcases hx with rfl | hx
        · exact Nat.le_refl pos
        · have := ih e.event_id (pos + 1) x hx
          omega

theorem data_loop_skip_consec (hf : HillasFn) :
    ∀ (l : List EventInput) (prev : Int) (pos i : Nat)
      (h : i + 1 < l.length),
      (l.get ⟨i + 1, h⟩).event_id = (l.get ⟨i, by omega⟩).event_id →
      ∀ x ∈ process_dataset_data_loop hf prev pos l, x.1 ≠ pos + (i + 1) := by
  intro l
  induction l with
  | nil => intro prev pos i h; simp at h
  | cons e rest ih =>
      intro prev pos i h heq x hx
      cases i with
      | zero =>
          cases rest with
          | nil => simp at h
          | cons e2 rest2 =>
              have he2 : e2.event_id = e.event_id := heq
              by_cases hp : prev = e.event_id
              · simp only [process_dataset_data_loop, if_pos hp] at hx
                rw [show prev = e.event_id from hp] at hx
                simp only [process_dataset_data_loop,
                  if_pos he2.symm] at hx
                have := data_loop_pos_lower hf rest2 e.event_id (pos + 2) x hx
                omega
              · simp only [process_dataset_data_loop, if_neg hp,
                  List.mem_cons] at hx
                rcases hx with rfl | hx
                · omega
                · simp only [process_dataset_data_loop,
                    if_pos he2.symm] at hx
                  have := data_loop_pos_lower hf rest2 e.event_id (pos + 2) x hx
                  omega
      | succ j =>
          have h2 : j + 1 < rest.length := by
            simp only [List.length_cons] at h; omega
          have heq2 : (rest.get ⟨j + 1, h2⟩).event_id =
              (rest.get ⟨j, by omega⟩).event_id := heq
          by_cases hp : prev = e.event_id
          · simp only [process_dataset_data_loop, if_pos hp] at hx
            have := ih prev (pos + 1) j h2 heq2 x hx
            omega
          · simp only [process_dataset_data_loop, if_neg hp,
              List.mem_cons] at hx
            rcases hx with rfl | hx
            · omega
            · have := ih e.event_id (pos + 1) j h2 heq2 x hx
              omega

theorem mc_loop_positions (hf : HillasFn) :
    ∀ (l : List EventInput) (pos : Nat),
      (process_dataset_mc_loop hf pos l).map (fun x => x.1) =
        List.range' pos l.length := by
  intro l
  induction l with
  | nil => intro pos; simp [process_dataset_mc_loop]
  | cons e rest ih =>
      intro pos
      simp only [process_dataset_mc_loop, List.map_cons, List.length_cons,
        List.range'_succ]
      rw [ih (pos + 1)]

/-- Claim C10. In the real-data event loop, an event whose `event_id`
equals the immediately preceding event's `event_id` is skipped entirely —
it produces no output entry at all, so two consecutive events with the
same id are never both processed — while the MC event loop processes
every event of the source without any deduplication. -/
theorem c10_consecutive_dedup (hf : HillasFn) (events : List EventInput)
    (i : Nat) (h : i + 1 < events.length)
    (heq : (events.get ⟨i + 1, h⟩).event_id =
      (events.get ⟨i, by omega⟩).event_id) :
    (∀ x ∈ process_dataset_data_loop hf 0 0 events, x.1 ≠ i + 1) ∧
    (process_dataset_mc_loop hf 0 events).map (fun x => x.1) =
      List.range events.length := by
  constructor
  · intro x hx
    have := data_loop_skip_consec hf events 0 0 i h heq x hx
    omega
  · rw [mc_loop_positions hf events 0, List.range_eq_range']

/-- Witness for C10: two consecutive events with event id 5; the second
(position 1) is absent from the data-loop output, while the MC loop
processes both positions. -/
theorem c10_consecutive_dedup_witness :
    (∀ x ∈ process_dataset_data_loop (fun _ _ => none) 0 0
        [⟨5, []⟩, ⟨5, []⟩], x.1 ≠ 1) ∧
    (process_dataset_mc_loop (fun _ _ => none) 0
        [⟨5, []⟩, ⟨5, []⟩]).map (fun x => x.1) = List.range 2 :=
  c10_consecutive_dedup (fun _ _ => none) [⟨5, []⟩, ⟨5, []⟩] 0
    (by decide) (by decide)

theorem refinePass_iterate_subset (cfg : CleanConfig) {n : Nat}
    (charge time : Fin n → ℚ) :
    ∀ (m : Nat) (s : Finset (Fin n)),
      (refinePass cfg charge time)^[m] s ⊆ s := by
  intro m
  induction m with
  | zero => intro s; simp
  | succ k ih =>
      intro s
      rw [Function.iterate_succ_apply']
      exact Finset.Subset.trans (Finset.filter_subset _ _) (ih s)

theorem coreSet_not_excluded (cfg : CleanConfig) {n : Nat}
    (charge time : Fin n → ℚ) (excluded : Fin n → Bool) :
    ∀ j ∈ coreSet cfg charge time excluded, excluded j = false := by
  intro j hj
  have hcc : j ∈ coreCandidates cfg charge excluded := by
    unfold coreSet at hj
    by_cases hu : cfg.usetime = true
    · rw [if_pos hu] at hj
      exact refinePass_iterate_subset cfg charge time 5 _ hj
    · rw [if_neg hu] at hj
      exact hj
  unfold coreCandidates at hcc
  exact (Finset.mem_filter.mp hcc).2.1

theorem growClean_iterate_not_excluded (cfg : CleanConfig) {n : Nat}
    (charge time : Fin n → ℚ) (adj : Fin n → Fin n → Bool)
    (excluded : Fin n → Bool) (s0 : Finset (Fin n))
    (h0 : ∀ j ∈ s0, excluded j = false) :
    ∀ (m : Nat), ∀ j ∈ (growClean cfg charge time adj excluded)^[m] s0,
      excluded j = false := by
  intro m
  induction m with
  | zero => intro j hj; exact h0 j hj
  | succ k ih =>
      intro j hj
      rw [Function.iterate_succ_apply'] at hj
      unfold growClean at hj
      rcases Finset.mem_union.mp hj with hj | hj
      · exact ih j hj
      · exact (Finset.mem_filter.mp hj).2.1

/-- Claim C7. The cleaning mask is false at every pixel marked unsuitable:
an unsuitable pixel is excluded before core selection and can be recruited
neither as a core seed nor by any round of boundary expansion, under any
configuration (and any hot-pixel policy). -/
theorem c7_unsuitable_never_selected (cfg : CleanConfig) {n : Nat}
    (charge time : Fin n → ℚ) (adj : Fin n → Fin n → Bool)
    (unsuitable hot : Fin n → Bool) (i : Fin n)
    (h : unsuitable i = true) :
    i ∉ clean_image cfg charge time adj unsuitable hot := by
  intro hmem
  have hx : excludedPix cfg unsuitable hot i = false :=
    growClean_iterate_not_excluded cfg charge time adj
      (excludedPix cfg unsuitable hot) _
      (coreSet_not_excluded cfg charge time (excludedPix cfg unsuitable hot))
      n i hmem
  unfold excludedPix at hx
  rw [h] at hx
  simp at hx

theorem subset_growComp {k : Nat} (e : Fin k → Fin k → Bool)
    (s : Finset (Fin k)) : s ⊆ growComp e s :=
  Finset.subset_union_left

theorem reachComp_grow_fixed {k : Nat} (e : Fin k → Fin k → Bool)
    (v : Fin k) : growComp e (reachComp e v) = reachComp e v := by
  have hsub : ∀ m : Nat, (growComp e)^[m] {v} ⊆ (growComp e)^[m + 1] {v} := by
    intro m
    rw [Function.iterate_succ_apply']
    exact subset_growComp e _
  by_cases hall : ∀ j, j < k → (growComp e)^[j] {v} ≠ (growComp e)^[j + 1] {v}
  · exfalso
    have hcard : ∀ m, m ≤ k → m + 1 ≤ ((growComp e)^[m] {v}).card := by
      intro m
      induction m with
      | zero => intro _; simp
      | succ j ih =>
          intro hm
          have h1 : j + 1 ≤ ((growComp e)^[j] {v}).card := ih (by omega)
          have hss : (growComp e)^[j] {v} ⊂ (growComp e)^[j + 1] {v} :=
            Finset.ssubset_iff_subset_ne.mpr ⟨hsub j, hall j (by omega)⟩
          have := Finset.card_lt_card hss
          omega
    have h2 := hcard k le_rfl
    have h3 : ((growComp e)^[k] {v}).card ≤ k := by
      have := Finset.card_le_univ ((growComp e)^[k] {v})
      simpa using this
    omega
  · push_neg at hall
    obtain ⟨j, hj, heq⟩ := hall
    have hfix : growComp e ((growComp e)^[j] {v}) = (growComp e)^[j] {v} :=
      (Function.iterate_succ_apply' (growComp e) j {v}).symm.trans heq.symm
    have key : ∀ m, j ≤ m → (growComp e)^[m] {v} = (growComp e)^[j] {v} := by
      intro m
      induction m with
      | zero =>
          intro hm
          have hj0 : j = 0 := by omega
          rw [hj0]
      | succ i ih =>
          intro hm
          rcases Nat.lt_or_ge j (i + 1) with h | h
          · rw [Function.iterate_succ_apply', ih (by omega), hfix]
          · have hji : j = i + 1 := by omega
            rw [hji]
    have hstab : (growComp e)^[k] {v} = (growComp e)^[j] {v} :=
      key k (by omega)
    unfold reachComp
    rw [hstab, hfix]

theorem mem_reachComp_self {k : Nat} (e : Fin k → Fin k → Bool)
    (v : Fin k) : v ∈ reachComp e v := by
  have hall : ∀ m : Nat, v ∈ (growComp e)^[m] {v} := by
    intro m
    induction m with
    | zero => simp
    | succ j ih =>
        rw [Function.iterate_succ_apply']
        exact subset_growComp e _ ih
  exact hall k

theorem reachComp_closed {k : Nat} (e : Fin k → Fin k → Bool)
    (v i j : Fin k) (hi : i ∈ reachComp e v) (hij : e i j = true) :
    j ∈ reachComp e v := by
  have hmem : j ∈ growComp e (reachComp e v) := by
    unfold growComp
    apply Finset.mem_union_right
    rw [Finset.mem_filter]
    exact ⟨Finset.mem_univ j, ⟨i, hi, hij⟩⟩
  rwa [reachComp_grow_fixed] at hmem

theorem mem_reachComp_iff {k : Nat} (e : Fin k → Fin k → Bool)
    (v w : Fin k) :
    w ∈ reachComp e v ↔
      Relation.ReflTransGen (fun a b => e a b = true) v w := by
  constructor
  · have hall : ∀ (m : Nat) (w : Fin k), w ∈ (growComp e)^[m] {v} →
        Relation.ReflTransGen (fun a b => e a b = true) v w := by
      intro m
      induction m with
      | zero =>
          intro w hw
          simp only [Function.iterate_zero_apply, Finset.mem_singleton] at hw
          rw [hw]
      | succ j ih =>
          intro w hw
          rw [Function.iterate_succ_apply'] at hw
          unfold growComp at hw
          rcases Finset.mem_union.mp hw with hw | hw
          · exact ih w hw
          · rw [Finset.mem_filter] at hw
            obtain ⟨-, i, hi, hiw⟩ := hw
            exact (ih i hi).tail hiw
    exact hall k w
  · intro h
    induction h with
    | refl => exact mem_reachComp_self e v
    | tail h1 h2 ih => exact reachComp_closed e v _ _ ih h2

theorem mem_selectedIdx (n : Nat) (mask : List Bool) (i : Nat) :
    i ∈ selectedIdx n mask ↔ i < n ∧ mask.getD i false = true := by
  unfold selectedIdx
  simp [List.mem_filter, List.mem_range]

theorem selectedIdx_nodup (n : Nat) (mask : List Bool) :
    (selectedIdx n mask).Nodup :=
  List.Nodup.filter _ (List.nodup_range n)

theorem selectedIdx_get_injective (n : Nat) (mask : List Bool) :
    Function.Injective (selectedIdx n mask).get :=
  List.nodup_iff_injective_get.mp (selectedIdx_nodup n mask)

theorem selectedIdx_get_mem (n : Nat) (mask : List Bool)
    (a : Fin (selectedIdx n mask).length) :
    (selectedIdx n mask).get a ∈ selectedIdx n mask :=
  List.mem_iff_get.mpr ⟨a, rfl⟩

theorem inducedAdj_iff (n : Nat) (adj : Nat → Nat → Bool) (mask : List Bool)
    (a b : Fin (selectedIdx n mask).length) :
    inducedAdj n adj mask a b = true ↔
      maskedAdj n adj mask ((selectedIdx n mask).get a)
        ((selectedIdx n mask).get b) := by
  have ha := (mem_selectedIdx n mask _).mp (selectedIdx_get_mem n mask a)
  have hb := (mem_selectedIdx n mask _).mp (selectedIdx_get_mem n mask b)
  unfold inducedAdj maskedAdj
  rw [Bool.or_eq_true]
  constructor
  · intro h
    exact ⟨ha, hb, h⟩
  · rintro ⟨-, -, h⟩
    exact h

theorem rtg_lift (n : Nat) (adj : Nat → Nat → Bool) (mask : List Bool)
    (a b : Fin (selectedIdx n mask).length)
    (h : Relation.ReflTransGen
      (fun x y => inducedAdj n adj mask x y = true) a b) :
    Relation.ReflTransGen (maskedAdj n adj mask)
      ((selectedIdx n mask).get a) ((selectedIdx n mask).get b) := by
  induction h with
  | refl => exact Relation.ReflTransGen.refl
  | tail h1 h2 ih => exact ih.tail ((inducedAdj_iff n adj mask _ _).mp h2)

theorem rtg_descend (n : Nat) (adj : Nat → Nat → Bool) (mask : List Bool)
    (a : Fin (selectedIdx n mask).length) (w : Nat)
    (h : Relation.ReflTransGen (maskedAdj n adj mask)
      ((selectedIdx n mask).get a) w) :
    ∃ b : Fin (selectedIdx n mask).length, (selectedIdx n mask).get b = w ∧
      Relation.ReflTransGen
        (fun x y => inducedAdj n adj mask x y = true) a b := by
  induction h with
  | refl => exact ⟨a, rfl, Relation.ReflTransGen.refl⟩
  | tail h1 h2 ih =>
      obtain ⟨bx, hbx, hrt⟩ := ih
      have hw := (mem_selectedIdx n mask _).mpr h2.2.1
      obtain ⟨bw, hbw⟩ := List.mem_iff_get.mp hw
      refine ⟨bw, hbw, hrt.tail ?_⟩
      rw [inducedAdj_iff, hbx, hbw]
      exact h2

theorem class_eq_image (n : Nat) (adj : Nat → Nat → Bool) (mask : List Bool)
    (a : Fin (selectedIdx n mask).length) :
    {w : Nat | Relation.ReflTransGen (maskedAdj n adj mask)
        ((selectedIdx n mask).get a) w} =
      ↑((reachComp (inducedAdj n adj mask) a).image
        (selectedIdx n mask).get) := by
  ext w
  simp only [Set.mem_setOf_eq, Finset.coe_image, Set.mem_image,
    Finset.mem_coe]
  constructor
  · intro h
    obtain ⟨b, hb, hrt⟩ := rtg_descend n adj mask a w h
    exact ⟨b, (mem_reachComp_iff _ a b).mpr hrt, hb⟩
  · rintro ⟨b, hb, rfl⟩
    exact rtg_lift n adj mask a b ((mem_reachComp_iff _ a b).mp hb)

theorem get_num_islands_eq_ncard (n : Nat) (adj : Nat → Nat → Bool)
    (mask : List Bool) (img : List ℚ) :
    get_num_islands n adj mask img =
      Set.ncard {C : Set Nat | ∃ v, (v < n ∧ mask.getD v false = true) ∧
        C = {w | Relation.ReflTransGen (maskedAdj n adj mask) v w}} := by
  have h1 : {C : Set Nat | ∃ v, (v < n ∧ mask.getD v false = true) ∧
      C = {w | Relation.ReflTransGen (maskedAdj n adj mask) v w}} =
      Set.range (fun a : Fin (selectedIdx n mask).length =>
        ((((reachComp (inducedAdj n adj mask) a).image
          (selectedIdx n mask).get) : Finset Nat) : Set Nat)) := by
    ext C
    simp only [Set.mem_setOf_eq, Set.mem_range]
    constructor
    · rintro ⟨v, hv, rfl⟩
      obtain ⟨a, ha⟩ := List.mem_iff_get.mp ((mem_selectedIdx n mask v).mpr hv)
      exact ⟨a, by rw [← class_eq_image, ha]⟩
    · rintro ⟨a, rfl⟩
      exact ⟨(selectedIdx n mask).get a,
        (mem_selectedIdx n mask _).mp (selectedIdx_get_mem n mask a),
        (class_eq_image n adj mask a).symm⟩
  rw [h1]
  have h2 : Set.range (fun a : Fin (selectedIdx n mask).length =>
      ((((reachComp (inducedAdj n adj mask) a).image
        (selectedIdx n mask).get) : Finset Nat) : Set Nat)) =
      (fun s : Finset Nat => (s : Set Nat)) ''
        Set.range (fun a : Fin (selectedIdx n mask).length =>
          (reachComp (inducedAdj n adj mask) a).image
            (selectedIdx n mask).get) := by
    ext C
    simp only [Set.mem_range, Set.mem_image]
    constructor
    · rintro ⟨a, rfl⟩
      exact ⟨_, ⟨a, rfl⟩, rfl⟩
    · rintro ⟨s, ⟨a, rfl⟩, rfl⟩
      exact ⟨a, rfl⟩
  have h3 : Set.range (fun a : Fin (selectedIdx n mask).length =>
      (reachComp (inducedAdj n adj mask) a).image (selectedIdx n mask).get) =
      ↑(Finset.image (fun a => (reachComp (inducedAdj n adj mask) a).image
        (selectedIdx n mask).get) Finset.univ) := by
    rw [Finset.coe_image, Finset.coe_univ, Set.image_univ]
  rw [h2, h3, Set.ncard_image_of_injective _ Finset.coe_injective,
    Set.ncard_coe_Finset]
  have h4 : Finset.image (fun a => (reachComp (inducedAdj n adj mask) a).image
      (selectedIdx n mask).get) Finset.univ =
      Finset.image (Finset.image (selectedIdx n mask).get)
        (Finset.image (reachComp (inducedAdj n adj mask)) Finset.univ) := by
    rw [Finset.image_image]
    rfl
  rw [h4, Finset.card_image_of_injective _
    (Finset.image_injective (selectedIdx_get_injective n mask))]
  rfl

/-- Claim C5. The island count of `get_num_islands` equals the number of
connected components — distinct undirected-reachability classes — of the
camera adjacency graph restricted to the pixels selected by the mask; in
particular an all-false mask yields 0 islands, a mask selecting one
connected clique yields 1, and a mask selecting exactly two mutually
non-adjacent pixels yields 2. -/
theorem c5_islands_eq_components :
    (∀ (n : Nat) (adj : Nat → Nat → Bool) (mask : List Bool) (img : List ℚ),
      get_num_islands n adj mask img =
        Set.ncard {C : Set Nat | ∃ v, (v < n ∧ mask.getD v false = true) ∧
          C = {w | Relation.ReflTransGen (maskedAdj n adj mask) v w}}) ∧
    get_num_islands 4 (fun a b => decide (a + 1 = b ∨ b + 1 = a))
      [false, false, false, false] [] = 0 ∧
    get_num_islands 3 (fun a b => decide (a ≠ b)) [true, true, true] [] = 1 ∧
    get_num_islands 3 (fun a b => decide (a + 1 = b ∨ b + 1 = a))
      [true, false, true] [] = 2 :=
  ⟨get_num_islands_eq_ncard, by decide, by decide, by decide⟩

/-- Claim C9. `get_num_islands` does not depend on its `event_image`
argument: the count is a function of the neighbor matrix and the cleaning
mask only, so any two charge images give the same result. -/
theorem c9_image_irrelevant (n : Nat) (adj : Nat → Nat → Bool)
    (mask : List Bool) (img1 img2 : List ℚ) :
    get_num_islands n adj mask img1 = get_num_islands n adj mask img2 := rfl

/-- Witness for C7 on a concrete two-pixel camera with the MC cleaning
configuration and pixel 0 unsuitable. -/
theorem c7_unsuitable_never_selected_witness :
    (0 : Fin 2) ∉ clean_image
      ⟨6, 7 / 2, 369 / 50, 123 / 50, true, true, true⟩
      (fun _ => 10) (fun _ => 0) (fun _ _ => true)
      (fun i => decide (i.val = 0)) (fun _ => false) :=
  c7_unsuitable_never_selected
    ⟨6, 7 / 2, 369 / 50, 123 / 50, true, true, true⟩
    (fun _ => 10) (fun _ => 0) (fun _ _ => true)
    (fun i => decide (i.val = 0)) (fun _ => false) 0 (by decide)

end MagicCTA
